import Mathlib

/-!
# SafeHarbour — verification of the name-matching core and its collaborators

Shallow embedding of `server/scripts/ner_extract.py` (the Name Normalizer,
Identity Matcher and Mention Extractor) and of `server/scripts/sanitize_pdf.py`
(the Document Sanitizer's command-line entry point), with theorems settling the
specification's claims about them.

Python strings are embedded as `List Char`; Python `None`-able values as
`Option`; dictionary lookups `d.get(k)` as `Option` fields and `d.get(k, v)` as
`Option.getD`.  The external entity recognizer (spaCy) is not part of the
repository: the extractor and the process entry point take the recognizer's
output (a list of labeled spans) as input, exactly as the spec's component
model prescribes.
-/

namespace SafeHarbour

/-- Python strings, embedded as lists of characters. -/
abbrev Str := List Char

/-- Python `str.lower()` (character-wise lowering). -/
def lower (s : Str) : Str := s.map Char.toLower

/-- Python `str.strip()`: remove leading and trailing whitespace. -/
def strip (s : Str) : Str :=
  (((s.dropWhile Char.isWhitespace).reverse).dropWhile Char.isWhitespace).reverse

/-- Worker for `split`: `acc` holds the reversed characters of the token being
read.  At a whitespace character (or the end) the pending token, if any, is
emitted. -/
def splitAux : Str → Str → List Str
  | [], acc => if acc.isEmpty then [] else [acc.reverse]
  | c :: rest, acc =>
    if c.isWhitespace then
      if acc.isEmpty then splitAux rest [] else acc.reverse :: splitAux rest []
    else splitAux rest (c :: acc)

/-- Python `str.split()` with no argument: split on runs of whitespace,
producing the list of (nonempty) whitespace-free tokens. -/
def split (s : Str) : List Str := splitAux s []

/-- Python `' '.join(tokens)`. -/
def joinSpace : List Str → Str
  | [] => []
  | [t] => t
  | t :: ts => t ++ ' ' :: joinSpace ts

/-- `normalize_name` from `ner_extract.py`:
`return ' '.join(name.lower().strip().split())`. -/
def normalize_name (name : Str) : Str := joinSpace (split (strip (lower name)))

/-- A roster entry, as the Python code reads it from JSON: both fields are read
with `dict.get` and may be absent. -/
structure KnownIdentity where
  name : Option Str
  uin : Option Str
deriving DecidableEq

/-- The per-entry test of the matcher's loop body: the detected name's
normalized key equals the entry's normalized display name (exact match), or
some whitespace-separated token of the key occurs among the tokens of the
entry's normalized display name. -/
def entryMatchesB (normalized_entity : Str) (known : KnownIdentity) : Bool :=
  let known_normalized := normalize_name (known.name.getD [])
  normalized_entity == known_normalized ||
    (split normalized_entity).any (fun p => (split known_normalized).contains p)

/-- The roster loop of `find_matching_uin`, entry by entry, with the early
returns of the Python `for` loop. -/
def find_matching_uin_loop (normalized_entity : Str) : List KnownIdentity → Option Str
  | [] => none
  | known :: rest =>
    let known_normalized := normalize_name (known.name.getD [])
    if normalized_entity = known_normalized then known.uin
    else
      let entity_parts := split normalized_entity
      let known_parts := split known_normalized
      if entity_parts.any (fun p => known_parts.contains p) then known.uin
      else find_matching_uin_loop normalized_entity rest

/-- `find_matching_uin` from `ner_extract.py`: normalize the detected entity
text, then scan `known_names` in order. -/
def find_matching_uin (entity_text : Str) (known_names : List KnownIdentity) : Option Str :=
  find_matching_uin_loop (normalize_name entity_text) known_names

/-- A span produced by the external entity recognizer (`ent` in the Python
loop): text, character offsets and label. -/
structure RecognizedSpan where
  text : Str
  start_char : Nat
  end_char : Nat
  label : Str
deriving DecidableEq

/-- The label the extractor keeps. -/
def PERSON : Str := "PERSON".toList

/-- An output entity dictionary of `extract_person_entities`. -/
structure Mention where
  text : Str
  start : Nat
  «end» : Nat
  label : Str
  uin : Option Str
deriving DecidableEq

/-- The loop of `extract_person_entities` from `ner_extract.py`, over the
recognizer's spans: keep `PERSON` spans, resolve each against the roster. -/
def extract_person_entities (ents : List RecognizedSpan) (known_names : List KnownIdentity) :
    List Mention :=
  match ents with
  | [] => []
  | ent :: rest =>
    if ent.label = PERSON then
      { text := ent.text, start := ent.start_char, «end» := ent.end_char,
        label := PERSON, uin := find_matching_uin ent.text known_names } ::
        extract_person_entities rest known_names
    else extract_person_entities rest known_names

/-- The request body, as `main` reads it: both keys are read with `dict.get`
and may be absent. -/
structure InputData where
  text : Option Str
  known_names : Option (List KnownIdentity)

/-- One JSON object printed to stdout by `main`. -/
inductive OutputLine where
  | entitiesOut (entities : List Mention)
  | errorOut (msg : Str)
deriving DecidableEq

/-- Whether a printed line is an `entities` payload. -/
def OutputLine.isEntitiesOut : OutputLine → Bool
  | entitiesOut _ => true
  | errorOut _ => false

/-- What one run of the process produces: its stdout lines and exit status. -/
structure MainResult where
  stdout : List OutputLine
  exitCode : Nat
deriving DecidableEq

/-- `main` of `ner_extract.py`.  Reading and JSON-decoding stdin is external:
`stdin_parse` is the decoder's outcome (`Except.error` is a
`json.JSONDecodeError` with its message).  The spaCy recognizer is external:
`recognize` is its output for a given text.  On a decode error `main` prints a
single error object and exits with status 1; on success it prints the single
entities object and exits normally. -/
def run_main (recognize : Str → List RecognizedSpan) (stdin_parse : Except Str InputData) :
    MainResult :=
  match stdin_parse with
  | .error e => { stdout := [.errorOut ("Invalid JSON input: ".toList ++ e)], exitCode := 1 }
  | .ok input_data =>
    let text := input_data.text.getD []
    let known_names := input_data.known_names.getD []
    let entities := extract_person_entities (recognize text) known_names
    { stdout := [.entitiesOut entities], exitCode := 0 }

/-- The metadata dictionary of a PDF file, restricted to the fields
`sanitize_pdf.py` reads or writes. -/
structure PdfMetadata where
  author : Option Str
  creator : Option Str
  producer : Option Str
  title : Option Str
  creationDate : Option Str
  modDate : Option Str
  subject : Option Str
  keywords : Option Str
deriving DecidableEq

/-- The fixed metadata block `sanitize_pdf` writes to the output file
(`sanitized_metadata` in the Python source); every other field is absent. -/
def sanitized_metadata : PdfMetadata :=
  { author := none
    creator := some "Safe Harbour Report System".toList
    producer := some "Safe Harbour POSH Platform".toList
    title := some "Confidential Report".toList
    creationDate := none
    modDate := none
    subject := none
    keywords := none }

/-- The result dictionary returned by `sanitize_pdf`. -/
structure SanitizeResult where
  status : Str
  input : Str
  output : Str
  stripped_fields : List Str
  original_author : Str
  original_creator : Str
deriving DecidableEq

/-- `sanitize_pdf` from `sanitize_pdf.py`.  File IO is external: `input_meta`
is the metadata of the file at `input_path`; the first component of the result
is the metadata of the file written at `output_path`, the second the returned
report dictionary. -/
def sanitize_pdf (input_path output_path : Str) (input_meta : PdfMetadata) :
    PdfMetadata × SanitizeResult :=
  (sanitized_metadata,
    { status := "success".toList
      input := input_path
      output := output_path
      stripped_fields :=
        ["/Author".toList, "/Creator".toList, "/Producer".toList, "/CreationDate".toList,
         "/ModDate".toList, "/Subject".toList, "/Keywords".toList, "/XMP".toList]
      original_author := input_meta.author.getD "N/A".toList
      original_creator := input_meta.creator.getD "N/A".toList })

/-- What one run of the sanitizer's command line produces. -/
inductive SanitizeMainResult where
  | usageError (exitCode : Nat)
  | sanitized (outputPath : Str) (outputMeta : PdfMetadata) (report : SanitizeResult)
      (exitCode : Nat)
deriving DecidableEq

/-- `main` of `sanitize_pdf.py`: `argv` is `sys.argv` (the script name first).
With fewer than three elements it prints the usage text and exits with status
1; otherwise it runs `sanitize_pdf` on the chosen paths and exits normally. -/
def sanitize_main (argv : List Str) (input_meta : PdfMetadata) : SanitizeMainResult :=
  if argv.length < 3 then .usageError 1
  else
    let input_path := argv.getD 1 []
    let output_path := if argv.length ≥ 3 then argv.getD 2 [] else input_path
    .sanitized output_path (sanitize_pdf input_path output_path input_meta).1
      (sanitize_pdf input_path output_path input_meta).2 0

/-! ## Character-level facts about Python `str.lower` -/

theorem toLower_eq_of_upper (c : Char) (h : c.toNat ≥ 65 ∧ c.toNat ≤ 90) :
    c.toLower = Char.ofNat (c.toNat + 32) := by
  unfold Char.toLower
  rw [if_pos h]

theorem toLower_eq_self (c : Char) (h : ¬ (c.toNat ≥ 65 ∧ c.toNat ≤ 90)) :
    c.toLower = c := by
  unfold Char.toLower
  rw [if_neg h]

theorem toLower_idem (c : Char) : c.toLower.toLower = c.toLower := by
  by_cases h : c.toNat ≥ 65 ∧ c.toNat ≤ 90
  · rw [toLower_eq_of_upper c h]
    obtain ⟨h1, h2⟩ := h
    generalize c.toNat = n at h1 h2
    interval_cases n <;> decide
  · rw [toLower_eq_self c h, toLower_eq_self c h]

theorem isWhitespace_toLower (c : Char) : c.toLower.isWhitespace = c.isWhitespace := by
  by_cases h : c.toNat ≥ 65 ∧ c.toNat ≤ 90
  · rw [toLower_eq_of_upper c h]
    have hcw : c.isWhitespace = false := by
      rcases hc : c.isWhitespace with _ | _
      · rfl
      · exfalso
        have := hc
        simp only [Char.isWhitespace, Bool.or_eq_true, decide_eq_true_eq] at this
        rcases this with ((rfl | rfl) | rfl) | rfl <;> revert h <;> decide
    rw [hcw]
    obtain ⟨h1, h2⟩ := h
    generalize c.toNat = n at h1 h2
    interval_cases n <;> decide
  · rw [toLower_eq_self c h]

/-! ## Facts about `split`, `strip` and `joinSpace` -/

theorem splitAux_all_ws : ∀ (w : Str), (∀ c ∈ w, c.isWhitespace = true) → ∀ (acc : Str),
    splitAux w acc = if acc.isEmpty then [] else [acc.reverse]
  | [], _, acc => rfl
  | c :: rest, hw, acc => by
    have hc : c.isWhitespace = true := hw c (List.mem_cons_self c rest)
    have hrest : ∀ d ∈ rest, d.isWhitespace = true := fun d hd => hw d (List.mem_cons_of_mem c hd)
    simp only [splitAux, hc, if_true]
    by_cases ha : acc.isEmpty
    · simp [ha, splitAux_all_ws rest hrest []]
    · simp [ha, splitAux_all_ws rest hrest []]

theorem splitAux_append_ws (w : Str) (hw : ∀ c ∈ w, c.isWhitespace = true) :
    ∀ (v : Str) (acc : Str), splitAux (v ++ w) acc = splitAux v acc := by
  intro v
  induction v with
  | nil =>
    intro acc
    rw [List.nil_append, splitAux_all_ws w hw acc]
    rfl
  | cons c rest ih =>
    intro acc
    simp only [List.cons_append, splitAux]
    by_cases hc : c.isWhitespace
    · simp [hc, ih]
    · simp [hc, ih]

theorem split_append_ws (v w : Str) (hw : ∀ c ∈ w, c.isWhitespace = true) :
    split (v ++ w) = split v :=
  splitAux_append_ws w hw v []

theorem split_dropWhile_ws (u : Str) :
    split (u.dropWhile Char.isWhitespace) = split u := by
  induction u with
  | nil => rfl
  | cons c rest ih =>
    by_cases hc : c.isWhitespace
    · rw [List.dropWhile_cons_of_pos hc, ih]
      show split rest = splitAux (c :: rest) []
      simp [splitAux, hc, split]
    · rw [List.dropWhile_cons_of_neg hc]

theorem split_strip (u : Str) : split (strip u) = split u := by
  unfold strip
  set u1 := u.dropWhile Char.isWhitespace with hu1
  have hdecomp : u1 = ((u1.reverse.dropWhile Char.isWhitespace).reverse) ++
      ((u1.reverse.takeWhile Char.isWhitespace).reverse) := by
    conv_lhs => rw [← List.reverse_reverse u1]
    rw [← List.reverse_append, List.takeWhile_append_dropWhile]
  have hws : ∀ c ∈ (u1.reverse.takeWhile Char.isWhitespace).reverse, c.isWhitespace = true := by
    intro c hc
    exact List.mem_takeWhile_imp (List.mem_reverse.mp hc)
  calc split ((u1.reverse.dropWhile Char.isWhitespace).reverse)
      = split (((u1.reverse.dropWhile Char.isWhitespace).reverse) ++
          ((u1.reverse.takeWhile Char.isWhitespace).reverse)) :=
        (split_append_ws _ _ hws).symm
    _ = split u1 := by rw [← hdecomp]
    _ = split u := split_dropWhile_ws u

theorem splitAux_word : ∀ (t : Str), (∀ c ∈ t, c.isWhitespace = false) →
    ∀ (s : Str) (acc : Str), splitAux (t ++ s) acc = splitAux s (t.reverse ++ acc)
  | [], _, s, acc => by simp
  | c :: rest, ht, s, acc => by
    have hc : c.isWhitespace = false := ht c (List.mem_cons_self c rest)
    have hrest : ∀ d ∈ rest, d.isWhitespace = false := fun d hd => ht d (List.mem_cons_of_mem c hd)
    simp only [List.cons_append, splitAux, hc, Bool.false_eq_true, if_false]
    show splitAux (rest ++ s) (c :: acc) = splitAux s ((c :: rest).reverse ++ acc)
    rw [splitAux_word rest hrest s (c :: acc)]
    congr 1
    simp

theorem split_joinSpace : ∀ (ts : List Str),
    (∀ t ∈ ts, t ≠ [] ∧ (∀ c ∈ t, c.isWhitespace = false)) →
    split (joinSpace ts) = ts
  | [], _ => rfl
  | [t], h => by
    obtain ⟨hne, hnw⟩ := h t (List.mem_singleton.mpr rfl)
    show splitAux (joinSpace [t]) [] = [t]
    have : joinSpace [t] = t ++ [] := by simp [joinSpace]
    rw [this, splitAux_word t hnw [] []]
    simp [splitAux, hne]
  | t :: t2 :: ts, h => by
    obtain ⟨hne, hnw⟩ := h t (List.mem_cons_self _ _)
    have hrest : ∀ u ∈ t2 :: ts, u ≠ [] ∧ (∀ c ∈ u, c.isWhitespace = false) :=
      fun u hu => h u (List.mem_cons_of_mem t hu)
    show splitAux (joinSpace (t :: t2 :: ts)) [] = t :: t2 :: ts
    have hj : joinSpace (t :: t2 :: ts) = t ++ (' ' :: joinSpace (t2 :: ts)) := rfl
    rw [hj, splitAux_word t hnw _ [], List.append_nil]
    have hsp : (' ' : Char).isWhitespace = true := rfl
    simp only [splitAux, hsp, if_true]
    have hie : t.reverse.isEmpty = false := by
      rw [List.isEmpty_eq_false]
      simpa using hne
    rw [hie]
    simp only [Bool.false_eq_true, if_false, List.reverse_reverse]
    rw [show splitAux (joinSpace (t2 :: ts)) [] = split (joinSpace (t2 :: ts)) from rfl,
      split_joinSpace (t2 :: ts) hrest]

theorem splitAux_tokens : ∀ (s : Str) (acc : Str), (∀ c ∈ acc, c.isWhitespace = false) →
    ∀ t ∈ splitAux s acc, t ≠ [] ∧ (∀ c ∈ t, c.isWhitespace = false)
  | [], acc, hacc, t, ht => by
    by_cases ha : acc.isEmpty
    · simp [splitAux, ha] at ht
    · simp only [splitAux, ha, Bool.false_eq_true, if_false, List.mem_singleton] at ht
      subst ht
      constructor
      · simpa [List.isEmpty_iff] using ha
      · intro c hc
        exact hacc c (List.mem_reverse.mp hc)
  | c :: rest, acc, hacc, t, ht => by
    by_cases hc : c.isWhitespace
    · by_cases ha : acc.isEmpty
      · simp only [splitAux, hc, if_true, ha] at ht
        exact splitAux_tokens rest [] (by intro d hd; simp at hd) t ht
      · simp only [splitAux, hc, if_true, ha, Bool.false_eq_true, if_false,
          List.mem_cons] at ht
        rcases ht with rfl | ht
        · constructor
          · simpa [List.isEmpty_iff] using ha
          · intro d hd
            exact hacc d (List.mem_reverse.mp hd)
        · exact splitAux_tokens rest [] (by intro d hd; simp at hd) t ht
    · simp only [splitAux, hc, if_false] at ht
      refine splitAux_tokens rest (c :: acc) ?_ t ht
      intro d hd
      rcases List.mem_cons.mp hd with rfl | hd
      · simpa using hc
      · exact hacc d hd

theorem splitAux_chars : ∀ (s : Str) (acc : Str), ∀ t ∈ splitAux s acc, ∀ c ∈ t,
    c ∈ acc ∨ c ∈ s
  | [], acc, t, ht, c, hc => by
    by_cases ha : acc.isEmpty
    · simp [splitAux, ha] at ht
    · simp only [splitAux, ha, Bool.false_eq_true, if_false, List.mem_singleton] at ht
      subst ht
      exact Or.inl (List.mem_reverse.mp hc)
  | b :: rest, acc, t, ht, c, hc => by
    by_cases hb : b.isWhitespace
    · by_cases ha : acc.isEmpty
      · simp only [splitAux, hb, if_true, ha] at ht
        rcases splitAux_chars rest [] t ht c hc with h | h
        · simp at h
        · exact Or.inr (List.mem_cons_of_mem b h)
      · simp only [splitAux, hb, if_true, ha, Bool.false_eq_true, if_false,
          List.mem_cons] at ht
        rcases ht with rfl | ht
        · exact Or.inl (List.mem_reverse.mp hc)
        · rcases splitAux_chars rest [] t ht c hc with h | h
          · simp at h
          · exact Or.inr (List.mem_cons_of_mem b h)
    · simp only [splitAux, hb, if_false] at ht
      rcases splitAux_chars rest (b :: acc) t ht c hc with h | h
      · rcases List.mem_cons.mp h with rfl | h
        · exact Or.inr (List.mem_cons_self c rest)
        · exact Or.inl h
      · exact Or.inr (List.mem_cons_of_mem b h)


/-! ## From token lists back to strings, and the matcher characterized -/

theorem map_eq_self_of_fixed {α : Type} (f : α → α) :
    ∀ (l : List α), (∀ x ∈ l, f x = x) → l.map f = l
  | [], _ => rfl
  | a :: as, h => by
    rw [List.map_cons, h a (List.mem_cons_self a as),
      map_eq_self_of_fixed f as (fun x hx => h x (List.mem_cons_of_mem a hx))]

theorem lower_joinSpace : ∀ (ts : List Str), lower (joinSpace ts) = joinSpace (ts.map lower)
  | [] => rfl
  | [t] => rfl
  | t :: t2 :: ts => by
    have ih := lower_joinSpace (t2 :: ts)
    show lower (t ++ ' ' :: joinSpace (t2 :: ts)) =
      joinSpace (lower t :: lower t2 :: ts.map lower)
    have h2 : joinSpace (lower t :: lower t2 :: ts.map lower) =
        lower t ++ ' ' :: joinSpace (lower t2 :: ts.map lower) := rfl
    rw [h2, ← List.map_cons lower t2 ts, ← ih]
    simp only [lower, List.map_append, List.map_cons]
    rfl

theorem mem_strip (u : Str) (c : Char) (hc : c ∈ strip u) : c ∈ u := by
  unfold strip at hc
  have h1 := List.mem_reverse.mp hc
  have h2 := (List.dropWhile_sublist Char.isWhitespace).mem h1
  have h3 := List.mem_reverse.mp h2
  exact (List.dropWhile_sublist Char.isWhitespace).mem h3

theorem splitAux_ne_nil : ∀ (s acc : Str),
    acc ≠ [] ∨ (∃ c ∈ s, c.isWhitespace = false) → splitAux s acc ≠ []
  | [], acc, h => by
    rcases h with h | ⟨c, hc, _⟩
    · have hne : acc.isEmpty = false := List.isEmpty_eq_false.mpr h
      simp [splitAux, hne]
    · simp at hc
  | b :: rest, acc, h => by
    cases hb : b.isWhitespace with
    | true =>
      cases hae : acc.isEmpty with
      | true =>
        have hacc : acc = [] := List.isEmpty_iff.mp hae
        rcases h with h | ⟨c, hc, hcw⟩
        · exact absurd hacc h
        · rcases List.mem_cons.mp hc with rfl | hc
          · rw [hb] at hcw
            exact absurd hcw (by simp)
          · simp only [splitAux, hb, if_true, hae]
            exact splitAux_ne_nil rest [] (Or.inr ⟨c, hc, hcw⟩)
      | false =>
        simp only [splitAux, hb, if_true, hae, Bool.false_eq_true, if_false]
        simp
    | false =>
      simp only [splitAux, hb, Bool.false_eq_true, if_false]
      exact splitAux_ne_nil rest (b :: acc) (Or.inl (by simp))

theorem joinSpace_ne_nil : ∀ (t : Str) (ts : List Str), t ≠ [] → joinSpace (t :: ts) ≠ []
  | t, [], h => by simpa [joinSpace] using h
  | t, t2 :: ts, _ => by
    show t ++ ' ' :: joinSpace (t2 :: ts) ≠ []
    simp

theorem normalize_eq_nil_iff (s : Str) :
    normalize_name s = [] ↔ ∀ c ∈ s, c.isWhitespace = true := by
  constructor
  · intro h
    by_contra hex
    push_neg at hex
    obtain ⟨c, hc, hcw⟩ := hex
    have hcw2 : c.isWhitespace = false := by
      cases hcb : c.isWhitespace with
      | true => exact absurd hcb hcw
      | false => rfl
    have hmem : c.toLower ∈ lower s := List.mem_map_of_mem Char.toLower hc
    have hlw : (c.toLower).isWhitespace = false := by
      rw [isWhitespace_toLower]
      exact hcw2
    have hsp : split (lower s) ≠ [] :=
      splitAux_ne_nil (lower s) [] (Or.inr ⟨c.toLower, hmem, hlw⟩)
    unfold normalize_name at h
    rw [split_strip] at h
    rcases hts : split (lower s) with _ | ⟨t, ts⟩
    · exact hsp hts
    · have hmemt : t ∈ splitAux (lower s) [] := by
        rw [show splitAux (lower s) [] = split (lower s) from rfl, hts]
        exact List.mem_cons_self t ts
      have htok := splitAux_tokens (lower s) [] (by intro d hd; simp at hd) t hmemt
      rw [hts] at h
      exact joinSpace_ne_nil t ts htok.1 h
  · intro h
    have hlow : ∀ c ∈ lower s, c.isWhitespace = true := by
      intro c hc
      obtain ⟨d, hd, rfl⟩ := List.mem_map.mp hc
      rw [isWhitespace_toLower]
      exact h d hd
    unfold normalize_name
    rw [split_strip, show split (lower s) = splitAux (lower s) [] from rfl,
      splitAux_all_ws (lower s) hlow []]
    rfl

theorem normalize_name_idem (s : Str) :
    normalize_name (normalize_name s) = normalize_name s := by
  set ts := split (strip (lower s)) with hts_def
  have htok : ∀ t ∈ ts, t ≠ [] ∧ (∀ c ∈ t, c.isWhitespace = false) :=
    fun t ht => splitAux_tokens (strip (lower s)) [] (by intro d hd; simp at hd) t ht
  have hfix : ts.map lower = ts := by
    apply map_eq_self_of_fixed
    intro t ht
    apply map_eq_self_of_fixed
    intro c hc
    have h1 : c ∈ strip (lower s) := by
      rcases splitAux_chars (strip (lower s)) [] t ht c hc with h | h
      · simp at h
      · exact h
    have h2 : c ∈ lower s := mem_strip (lower s) c h1
    obtain ⟨d, _, rfl⟩ := List.mem_map.mp h2
    exact toLower_idem d
  show joinSpace (split (strip (lower (joinSpace ts)))) = joinSpace ts
  rw [lower_joinSpace, hfix, split_strip, split_joinSpace ts htok]

/-- The Normalizer as the spec's words describe it: convert to lower case,
split on any whitespace run, rejoin the tokens with single spaces. -/
def normalize_spec (name : Str) : Str := joinSpace (split (lower name))

theorem normalize_name_eq_spec (s : Str) : normalize_name s = normalize_spec s := by
  unfold normalize_name normalize_spec
  rw [split_strip]

theorem find_loop_eq_find (key : Str) : ∀ (r : List KnownIdentity),
    find_matching_uin_loop key r = (r.find? (entryMatchesB key)).bind KnownIdentity.uin
  | [] => rfl
  | known :: rest => by
    by_cases hex : key = normalize_name (known.name.getD [])
    · have hpred : entryMatchesB key known = true := by
        unfold entryMatchesB
        simp [hex]
      rw [List.find?_cons_of_pos rest hpred, Option.some_bind]
      unfold find_matching_uin_loop
      rw [if_pos hex]
    · by_cases hpart : (split key).any
          (fun p => (split (normalize_name (known.name.getD []))).contains p) = true
      · have hpred : entryMatchesB key known = true := by
          unfold entryMatchesB
          simp only [Bool.or_eq_true]
          exact Or.inr hpart
        rw [List.find?_cons_of_pos rest hpred, Option.some_bind]
        unfold find_matching_uin_loop
        rw [if_neg hex, if_pos hpart]
      · have hpred : ¬ entryMatchesB key known = true := by
          unfold entryMatchesB
          simp only [Bool.or_eq_true, beq_iff_eq]
          rintro (h | h)
          · exact hex h
          · exact hpart h
        rw [List.find?_cons_of_neg rest hpred]
        unfold find_matching_uin_loop
        rw [if_neg hex, if_neg hpart]
        exact find_loop_eq_find key rest

theorem extract_eq_filter_map (spans : List RecognizedSpan) (kn : List KnownIdentity) :
    extract_person_entities spans kn =
      (spans.filter (fun sp => sp.label == PERSON)).map
        (fun sp => { text := sp.text, start := sp.start_char, «end» := sp.end_char,
                     label := PERSON, uin := find_matching_uin sp.text kn }) := by
  induction spans with
  | nil => rfl
  | cons ent rest ih =>
    by_cases h : ent.label = PERSON
    · unfold extract_person_entities
      rw [if_pos h, List.filter_cons_of_pos (by simp [h]), List.map_cons, ih]
    · unfold extract_person_entities
      rw [if_neg h, List.filter_cons_of_neg (by simp [h]), ih]

theorem find_loop_uin_mem (key : Str) (r : List KnownIdentity) (u : Str)
    (h : find_matching_uin_loop key r = some u) : ∃ k ∈ r, k.uin = some u := by
  rw [find_loop_eq_find] at h
  rcases hf : r.find? (entryMatchesB key) with _ | k
  · rw [hf] at h
    simp at h
  · rw [hf, Option.some_bind] at h
    exact ⟨k, List.mem_of_find?_eq_some hf, h⟩

/-- Claim C1: for every detected name and every roster, the matcher scans the
roster in order and returns the UIN field of the first entry whose normalized
display name equals the normalized detected name exactly or shares at least one
whitespace-separated token with it; when the roster (empty included) has no
such entry, it returns `none`.  `List.find?` is the in-order first entry
satisfying the per-entry test `entryMatchesB`. -/
theorem C1_matcher_first_match (entity_text : Str) (known_names : List KnownIdentity) :
    (∀ k : KnownIdentity,
      known_names.find? (entryMatchesB (normalize_name entity_text)) = some k →
      find_matching_uin entity_text known_names = k.uin) ∧
    (known_names.find? (entryMatchesB (normalize_name entity_text)) = none →
      find_matching_uin entity_text known_names = none) := by
  constructor
  · intro k hk
    unfold find_matching_uin
    rw [find_loop_eq_find, hk, Option.some_bind]
  · intro hk
    unfold find_matching_uin
    rw [find_loop_eq_find, hk]
    rfl

/-- Claim C2 as stated is false: in the roster
`[{name: John, uin: 9}, {name: John Doe, uin: 1}]`, which contains the entry
`{name: John Doe, uin: 1}`, the detected name `John Doe` (normalizing to
`john doe`) makes the matcher return `9`, not `1`: the earlier entry already
shares the token `john` and first match wins. -/
theorem C2_counterexample :
    ¬ (∀ (roster : List KnownIdentity) (detected : Str),
        (⟨some "John Doe".toList, some "1".toList⟩ : KnownIdentity) ∈ roster →
        normalize_name detected = "john doe".toList →
        find_matching_uin detected roster = some "1".toList) := by
  intro h
  have h2 := h
    [⟨some "John".toList, some "9".toList⟩, ⟨some "John Doe".toList, some "1".toList⟩]
    "John Doe".toList (by decide) (by decide)
  exact absurd h2 (by decide)

/-- Claim C2 (amended): for every roster containing `{name: John Doe, uin: 1}`
such that no entry before it exactly or per-token matches the detected name,
and every detected name normalizing to `john doe`, the matcher returns `1`. -/
theorem C2_exact_match_amended (r1 r2 : List KnownIdentity) (detected : Str)
    (hnorm : normalize_name detected = "john doe".toList)
    (hbefore : ∀ k ∈ r1, entryMatchesB (normalize_name detected) k = false) :
    find_matching_uin detected
      (r1 ++ (⟨some "John Doe".toList, some "1".toList⟩ : KnownIdentity) :: r2) =
      some "1".toList := by
  unfold find_matching_uin
  rw [find_loop_eq_find, List.find?_append,
    List.find?_eq_none.mpr (fun x hx => by simp [hbefore x hx]), Option.none_or,
    List.find?_cons_of_pos r2 (by rw [hnorm]; decide), Option.some_bind]

/-- Witness for the amended claim C2 at a concrete roster and detected name. -/
theorem C2_exact_match_amended_witness :
    find_matching_uin "JOHN   doe".toList
      ([⟨some "Jane Roe".toList, some "7".toList⟩] ++
        (⟨some "John Doe".toList, some "1".toList⟩ : KnownIdentity) ::
        [⟨some "John".toList, some "9".toList⟩]) =
      some "1".toList :=
  C2_exact_match_amended [⟨some "Jane Roe".toList, some "7".toList⟩]
    [⟨some "John".toList, some "9".toList⟩] "JOHN   doe".toList (by decide)
    (by intro k hk; fin_cases hk; decide)

/-- Claim C3: the extractor returns exactly one `Mention` per span labeled
`PERSON`, in the original span order, carrying the span's text, offsets, the
label `PERSON` and the matcher's result for the span's text against the full
roster; spans with any other label produce nothing, so without `PERSON` spans
the output is empty (the filter is empty, so the map is empty). -/
theorem C3_extractor_person_spans (spans : List RecognizedSpan)
    (known_names : List KnownIdentity) :
    extract_person_entities spans known_names =
      (spans.filter (fun sp => sp.label == PERSON)).map
        (fun sp => { text := sp.text, start := sp.start_char, «end» := sp.end_char,
                     label := PERSON, uin := find_matching_uin sp.text known_names }) :=
  extract_eq_filter_map spans known_names

/-- Claim C4: normalization is idempotent —
`normalize (normalize s) = normalize s` for every string `s`. -/
theorem C4_normalize_idempotent (s : Str) :
    normalize_name (normalize_name s) = normalize_name s :=
  normalize_name_idem s

/-- Claim C5: the normalizer lower-cases its input, splits it on whitespace
runs and rejoins the tokens with single spaces (`normalize_spec`, worded from
the spec, with the code's redundant `strip` shown to not matter), and every
whitespace-only input — the empty string included — normalizes to the empty
string.  Being a total Lean function, it always succeeds. -/
theorem C5_normalizer_behavior (s : Str) :
    normalize_name s = normalize_spec s ∧
    ((∀ c ∈ s, c.isWhitespace = true) → normalize_name s = []) :=
  ⟨normalize_name_eq_spec s, fun h => (normalize_eq_nil_iff s).mpr h⟩

/-- Claim C6: a roster entry whose display name is missing or empty normalizes
to the empty string, and the matcher's per-entry test accepts it exactly when
the detected name is itself empty or whitespace-only; a detected name with at
least one token never matches such an entry.  No error can arise: all the
embedded functions are total. -/
theorem C6_empty_display_name (k : KnownIdentity) (e : Str)
    (h : k.name = none ∨ k.name = some []) :
    normalize_name (k.name.getD []) = [] ∧
    (entryMatchesB (normalize_name e) k = true ↔ ∀ c ∈ e, c.isWhitespace = true) := by
  have hk : k.name.getD [] = [] := by rcases h with h | h <;> simp [h]
  have hnorm : normalize_name (k.name.getD []) = [] := by rw [hk]; rfl
  refine ⟨hnorm, ?_⟩
  simp only [entryMatchesB, hnorm]
  rw [show split ([] : Str) = [] from rfl]
  simp only [List.contains_nil, List.any_eq_true, Bool.or_eq_true, beq_iff_eq]
  constructor
  · rintro (h1 | ⟨p, hp, hfalse⟩)
    · exact (normalize_eq_nil_iff e).mp h1
    · cases hfalse
  · intro h1
    exact Or.inl ((normalize_eq_nil_iff e).mpr h1)

/-- Witness for claim C6: the entry with a missing name against the detected
name `Bob`. -/
theorem C6_empty_display_name_witness :
    normalize_name ((⟨none, some "1".toList⟩ : KnownIdentity).name.getD []) = [] ∧
    (entryMatchesB (normalize_name "Bob".toList) ⟨none, some "1".toList⟩ = true ↔
      ∀ c ∈ "Bob".toList, c.isWhitespace = true) :=
  C6_empty_display_name ⟨none, some "1".toList⟩ "Bob".toList (Or.inl rfl)

/-- Claim C7: when stdin does not decode as JSON, `main` prints exactly one
error object, exits with a status other than zero, and emits no entities
output at all. -/
theorem C7_malformed_input (recognize : Str → List RecognizedSpan) (e : Str) :
    (run_main recognize (Except.error e)).stdout =
      [OutputLine.errorOut ("Invalid JSON input: ".toList ++ e)] ∧
    (run_main recognize (Except.error e)).exitCode ≠ 0 ∧
    (run_main recognize (Except.error e)).stdout.all (fun l => !l.isEntitiesOut) = true := by
  refine ⟨rfl, ?_, rfl⟩
  show (1 : Nat) ≠ 0
  exact Nat.one_ne_zero

/-- Claim C8 names a behavior the code does not have: `main` of
`sanitize_pdf.py` rejects the documented single-argument in-place invocation
(`sys.argv = [sanitize_pdf.py, report.pdf]`) with the usage message and exit
status 1, although its own usage text advertises that form and its
`output_path` fallback expects it; the sanitizing branch is never reached. -/
theorem C8_in_place_invocation_rejected :
    sanitize_main ["sanitize_pdf.py".toList, "report.pdf".toList]
      { author := some "Alice Author".toList
        creator := some "Microsoft Word".toList
        producer := none
        title := none
        creationDate := some "D:20240101".toList
        modDate := none
        subject := none
        keywords := none } =
      SanitizeMainResult.usageError 1 := by decide

/-- Claim C9: whenever the matcher returns a UIN it is the `uin` field of some
entry of the given roster, and hence every UIN carried by a `Mention` the
extractor outputs comes from the roster supplied with the request. -/
theorem C9_uin_provenance (r : List KnownIdentity) :
    (∀ (e u : Str), find_matching_uin e r = some u → ∃ k ∈ r, k.uin = some u) ∧
    (∀ (spans : List RecognizedSpan) (m : Mention) (u : Str),
      m ∈ extract_person_entities spans r → m.uin = some u → ∃ k ∈ r, k.uin = some u) := by
  constructor
  · intro e u h
    exact find_loop_uin_mem (normalize_name e) r u h
  · intro spans m u hm hu
    rw [extract_eq_filter_map] at hm
    obtain ⟨sp, _, rfl⟩ := List.mem_map.mp hm
    exact find_loop_uin_mem (normalize_name sp.text) r u hu

/-- Claim C10: when the first roster entry (in scan order) that matches the
detected name has no `uin` field, the matcher returns `none` — the same answer
as for no match — and the entries after it are never consulted: the result is
`none` whatever follows that entry, even a matching entry with a UIN. -/
theorem C10_missing_uin_first_match (e : Str) (r1 r2 : List KnownIdentity)
    (k : KnownIdentity)
    (h1 : ∀ x ∈ r1, entryMatchesB (normalize_name e) x = false)
    (h2 : entryMatchesB (normalize_name e) k = true)
    (h3 : k.uin = none) :
    find_matching_uin e (r1 ++ k :: r2) = none ∧
    ∀ (r2' : List KnownIdentity), find_matching_uin e (r1 ++ k :: r2') = none := by
  have key : ∀ (rr : List KnownIdentity), find_matching_uin e (r1 ++ k :: rr) = none := by
    intro rr
    unfold find_matching_uin
    rw [find_loop_eq_find, List.find?_append,
      List.find?_eq_none.mpr (fun x hx => by simp [h1 x hx]), Option.none_or,
      List.find?_cons_of_pos rr h2, Option.some_bind, h3]
  exact ⟨key r2, key⟩

/-- Witness for claim C10: a roster whose first entry matches `John Doe` but
has no UIN, followed by a matching entry that has one. -/
theorem C10_missing_uin_first_match_witness :
    find_matching_uin "John Doe".toList
      ([] ++ (⟨some "John Doe".toList, none⟩ : KnownIdentity) ::
        [⟨some "John Doe".toList, some "1".toList⟩]) = none ∧
    ∀ (r2' : List KnownIdentity), find_matching_uin "John Doe".toList
      ([] ++ (⟨some "John Doe".toList, none⟩ : KnownIdentity) :: r2') = none :=
  C10_missing_uin_first_match "John Doe".toList []
    [⟨some "John Doe".toList, some "1".toList⟩] ⟨some "John Doe".toList, none⟩
    (by simp) (by decide) rfl

end SafeHarbour
